import Mathlib

/-!
Verification of the pattern-matching prediction engine of the OGBots/og
repository (`src/pattern_matcher.py`, class `PatternMatcher`).

The engine is pure: `find_matching_patterns` slides every pattern of a
pattern table over a result history and collects the outcome of every
match, `get_best_prediction` picks the most frequent outcome (first
encountered wins ties), and `predict` composes the two.

The Python pattern table is a `dict[str, str]`; Python dicts iterate in
insertion order, so it is embedded as an association list
`List (String × String)` (keys assumed distinct, as dict keys are).
Python lists of result labels become `List String`.
-/

namespace OG

/-- Embedding of Python `s.split(',')` (`pattern_str.split(',')`,
src/pattern_matcher.py line 28), as structural recursion over the
characters of `s`: split at every comma, so `"" ↦ [""]`,
`"a,,b" ↦ ["a","","b"]`. -/
def splitCommaAux : List Char → List Char → List String
  | [], acc => [String.mk acc.reverse]
  | c :: cs, acc =>
    if c = ',' then String.mk acc.reverse :: splitCommaAux cs []
    else splitCommaAux cs (c :: acc)

/-- Python `pattern_str.split(',')`. -/
def splitComma (s : String) : List String := splitCommaAux s.data []

/-- Python slice `results[i : i + L]`. -/
def window (results : List String) (i L : Nat) : List String :=
  (results.drop i).take L

/-- Embedding of `PatternMatcher.find_matching_patterns`
(src/pattern_matcher.py lines 10-41): guard `if not patterns or not
results: return []`, then a fold over the table appending `prediction`
to `matches` at every offset `i` where `results[i:i+len] == pattern`.
(The local `results_str = ','.join(results)` of line 25 is unused by
the source and is therefore not modelled.) -/
def find_matching_patterns (patterns : List (String × String))
    (results : List String) : List String :=
  if patterns = [] ∨ results = [] then []
  else
    patterns.foldl (fun matchList pr =>
      let pattern := splitComma pr.1
      let pattern_len := pattern.length
      if pattern_len > results.length then matchList
      else (List.range (results.length - pattern_len + 1)).foldl
        (fun ms i => if window results i pattern_len = pattern
                     then ms ++ [pr.2] else ms)
        matchList)
      []

/-- Embedding of the dict update `prediction_counts[pred] =
prediction_counts.get(pred, 0) + 1` (line 60): an existing key keeps
its position, a new key is appended at the end, matching Python dict
insertion-order semantics. -/
def bump (counts : List (String × Nat)) (pred : String) :
    List (String × Nat) :=
  match counts with
  | [] => [(pred, 1)]
  | (k, c) :: rest =>
      if k = pred then (k, c + 1) :: rest else (k, c) :: bump rest pred

/-- One iteration of the selection loop of lines 66-69:
`if count > highest_count: highest_count = count; best_prediction = pred`. -/
def selStep (st : Option String × Nat) (kc : String × Nat) :
    Option String × Nat :=
  if kc.2 > st.2 then (some kc.1, kc.2) else st

/-- Embedding of `PatternMatcher.get_best_prediction`
(src/pattern_matcher.py lines 44-71): `None` on the empty list,
otherwise tally the predictions in a dict and scan the tally in
insertion order keeping the first strict maximum. -/
def get_best_prediction (matching_predictions : List String) :
    Option String :=
  if matching_predictions = [] then none
  else
    let prediction_counts := matching_predictions.foldl bump []
    (prediction_counts.foldl selStep ((none : Option String), 0)).1

/-- Embedding of `PatternMatcher.predict` (src/pattern_matcher.py
lines 74-86). -/
def predict (patterns : List (String × String)) (results : List String) :
    Option String :=
  get_best_prediction (find_matching_patterns patterns results)

/-! ### State-passing embedding

To make the frame property (no argument is mutated) expressible, the
matching loop is also embedded with the whole environment of the Python
call — both arguments and the local `matches` — threaded as explicit
state; every write the source performs is a write to this state, so a
mutation of an argument would be visible in the final state. -/

/-- The mutable environment of a `find_matching_patterns` call: the two
arguments and the local accumulator `matches`. -/
structure MatcherState where
  patterns : List (String × String)
  results : List String
  matchList : List String
  deriving Repr, DecidableEq

/-- One iteration of the outer `for pattern_str, prediction in
patterns.items()` loop, acting on the whole environment. -/
def fmp_body (s : MatcherState) (pr : String × String) : MatcherState :=
  let pattern := splitComma pr.1
  let pattern_len := pattern.length
  if pattern_len > s.results.length then s
  else (List.range (s.results.length - pattern_len + 1)).foldl
    (fun s2 i => if window s2.results i pattern_len = pattern
                 then { s2 with matchList := s2.matchList ++ [pr.2] } else s2)
    s

/-- Running `find_matching_patterns patterns results` with the whole
environment explicit; the initial state holds the caller's arguments and
an empty `matches`. -/
def find_matching_patterns_run (patterns : List (String × String))
    (results : List String) : MatcherState :=
  if patterns = [] ∨ results = [] then ⟨patterns, results, []⟩
  else patterns.foldl fmp_body ⟨patterns, results, []⟩

/-! ### Specification-side definitions

These definitions follow the words of the specification (§4.1): slide a
window of the pattern's length across `results` at every start offset,
and each offset where the window equals the pattern contributes one
occurrence of the outcome. They are compared with the source-derived
`find_matching_patterns` by the refinement theorems below. -/

/-- The start offsets at which `pat` equals the window of `results` of
the same length, in ascending order (spec §4.1: offsets
`0..len(results)-L` inclusive). -/
def matchingOffsets (pat : List String) (results : List String) :
    List Nat :=
  (List.range (results.length - pat.length + 1)).filter
    (fun i => window results i pat.length = pat)

/-- The occurrences one table entry contributes: its outcome once per
matching offset (spec §4.1). -/
def contrib (results : List String) (pr : String × String) :
    List String :=
  (matchingOffsets (splitComma pr.1) results).map (fun _ => pr.2)

/-- The distinct elements of a list in order of first appearance (spec
§4.1: "the order in which distinct labels first appeared"). -/
def firstOccs : List String → List String
  | [] => []
  | x :: xs => x :: (firstOccs xs).filter (fun y => y ≠ x)

/-- The largest count in a tally (0 for the empty tally). -/
def maxValue (counts : List (String × Nat)) : Nat :=
  (counts.map Prod.snd).foldr max 0

/-! ### Lemmas about `splitComma` and `matchingOffsets` -/

lemma splitCommaAux_ne_nil (l : List Char) (acc : List Char) :
    splitCommaAux l acc ≠ [] := by
  induction l generalizing acc with
  | nil => simp [splitCommaAux]
  | cons c cs ih =>
      simp only [splitCommaAux]
      split
      · simp
      · exact ih _

lemma splitComma_ne_nil (s : String) : splitComma s ≠ [] :=
  splitCommaAux_ne_nil _ _

lemma splitComma_length_pos (s : String) : 0 < (splitComma s).length :=
  List.length_pos.mpr (splitComma_ne_nil s)

/-- A pattern longer than the history matches at no offset. -/
lemma matchingOffsets_of_too_long {pat results : List String}
    (hlt : results.length < pat.length) :
    matchingOffsets pat results = [] := by
  unfold matchingOffsets
  have h0 : results.length - pat.length = 0 :=
    Nat.sub_eq_zero_of_le (Nat.le_of_lt hlt)
  rw [h0]
  have hwin : window results 0 pat.length ≠ pat := by
    intro heq
    have := congrArg List.length heq
    simp only [window, List.drop_zero, List.length_take] at this
    omega
  simp [List.range_succ, hwin]

/-! ### Refinement: `find_matching_patterns` equals the spec-side
sliding-window characterization -/

lemma inner_fold_eq (results pattern : List String) (y : String) :
    ∀ (l : List Nat) (ms : List String),
      l.foldl (fun ms2 i =>
          if window results i pattern.length = pattern
          then ms2 ++ [y] else ms2) ms
        = ms ++ (l.filter (fun i =>
            window results i pattern.length = pattern)).map (fun _ => y) := by
  intro l
  induction l with
  | nil => intro ms; simp
  | cons i is ih =>
      intro ms
      by_cases h : window results i pattern.length = pattern
      · simp [List.foldl_cons, h, ih]
      · simp [List.foldl_cons, h, ih]

lemma outer_fold_eq (results : List String) :
    ∀ (patterns : List (String × String)) (acc : List String),
      patterns.foldl (fun matchList pr =>
        let pattern := splitComma pr.1
        let pattern_len := pattern.length
        if pattern_len > results.length then matchList
        else (List.range (results.length - pattern_len + 1)).foldl
          (fun ms i => if window results i pattern_len = pattern
                       then ms ++ [pr.2] else ms)
          matchList) acc
        = acc ++ patterns.flatMap (contrib results) := by
  intro patterns
  induction patterns with
  | nil => intro acc; simp
  | cons pr prs ih =>
      intro acc
      rw [List.foldl_cons, ih, List.flatMap_cons]
      have hstep : (let pattern := splitComma pr.1
          let pattern_len := pattern.length
          if pattern_len > results.length then acc
          else (List.range (results.length - pattern_len + 1)).foldl
            (fun ms i => if window results i pattern_len = pattern
                         then ms ++ [pr.2] else ms)
            acc) = acc ++ contrib results pr := by
        simp only []
        by_cases hL : (splitComma pr.1).length > results.length
        · rw [if_pos hL, contrib,
            matchingOffsets_of_too_long hL]
          simp
        · rw [if_neg hL, inner_fold_eq]
          rfl
      rw [hstep, List.append_assoc]

/-! ### The tally: `foldl bump` builds the counts in first-appearance
order -/

/-- The keys of a tally, in order. -/
def keysOf (counts : List (String × Nat)) : List String :=
  counts.map Prod.fst

lemma bump_of_not_mem {acc : List (String × Nat)} {p : String}
    (hp : p ∉ keysOf acc) : bump acc p = acc ++ [(p, 1)] := by
  induction acc with
  | nil => rfl
  | cons kc rest ih =>
      obtain ⟨k, c⟩ := kc
      simp only [keysOf, List.map_cons, List.mem_cons] at hp
      push_neg at hp
      simp only [bump, if_neg (Ne.symm hp.1), List.cons_append]
      rw [ih (by simpa [keysOf] using hp.2)]

lemma bump_of_mem {acc : List (String × Nat)} {p : String}
    (hnd : (keysOf acc).Nodup) (hp : p ∈ keysOf acc) :
    bump acc p
      = acc.map (fun kc => if kc.1 = p then (kc.1, kc.2 + 1) else kc) := by
  induction acc with
  | nil => simp [keysOf] at hp
  | cons kc rest ih =>
      obtain ⟨k, c⟩ := kc
      simp only [keysOf, List.map_cons, List.nodup_cons] at hnd
      by_cases hk : k = p
      · subst hk
        have hrest : rest.map
            (fun kc => if kc.1 = k then (kc.1, kc.2 + 1) else kc) = rest := by
          have h1 : ∀ kc ∈ rest,
              (if kc.1 = k then (kc.1, kc.2 + 1) else kc) = id kc := by
            intro kc hkc
            rw [if_neg, id_eq]
            intro h
            exact hnd.1 (h ▸ List.mem_map_of_mem Prod.fst hkc)
          rw [List.map_congr_left h1, List.map_id]
        simp [bump, hrest]
      · have hp' : p ∈ keysOf rest := by
          simp only [keysOf, List.map_cons, List.mem_cons] at hp
          rcases hp with h | h
          · exact absurd h.symm hk
          · exact h
        simp only [bump, if_neg hk, List.map_cons, if_neg hk]
        rw [ih hnd.2 hp']

lemma keysOf_bump_of_mem {acc : List (String × Nat)} {p : String}
    (hnd : (keysOf acc).Nodup) (hp : p ∈ keysOf acc) :
    keysOf (bump acc p) = keysOf acc := by
  rw [bump_of_mem hnd hp]
  simp only [keysOf, List.map_map]
  apply List.map_congr_left
  intro kc _
  by_cases h : kc.1 = p <;> simp [h]

lemma keysOf_bump_of_not_mem {acc : List (String × Nat)} {p : String}
    (hp : p ∉ keysOf acc) :
    keysOf (bump acc p) = keysOf acc ++ [p] := by
  rw [bump_of_not_mem hp]
  simp [keysOf]

/-! ### `firstOccs` lemmas -/

lemma mem_firstOccs {x : String} : ∀ {l : List String},
    x ∈ firstOccs l ↔ x ∈ l := by
  intro l
  induction l with
  | nil => simp [firstOccs]
  | cons y ys ih =>
      simp only [firstOccs, List.mem_cons]
      constructor
      · rintro (h | h)
        · exact Or.inl h
        · exact Or.inr (ih.mp (List.mem_of_mem_filter h))
      · rintro (h | h)
        · exact Or.inl h
        · by_cases hxy : x = y
          · exact Or.inl hxy
          · exact Or.inr (List.mem_filter.mpr ⟨ih.mpr h, by simp [hxy]⟩)

lemma nodup_firstOccs : ∀ (l : List String), (firstOccs l).Nodup := by
  intro l
  induction l with
  | nil => simp [firstOccs]
  | cons y ys ih =>
      rw [firstOccs, List.nodup_cons]
      refine ⟨?_, List.Nodup.filter _ ih⟩
      intro hy
      have := (List.mem_filter.mp hy).2
      simp at this

lemma firstOccs_filter (q : String → Bool) :
    ∀ (l : List String), firstOccs (l.filter q) = (firstOccs l).filter q := by
  intro l
  induction l with
  | nil => simp [firstOccs]
  | cons y ys ih =>
      have hR : firstOccs (y :: ys)
          = y :: (firstOccs ys).filter (fun z => z ≠ y) := rfl
      by_cases hq : q y = true
      · rw [List.filter_cons, if_pos hq, hR, List.filter_cons, if_pos hq]
        have hL : firstOccs (y :: ys.filter q)
            = y :: (firstOccs (ys.filter q)).filter (fun z => z ≠ y) := rfl
        rw [hL, ih]
        congr 1
        exact List.filter_comm _ _ _
      · rw [List.filter_cons, if_neg hq, ih, hR, List.filter_cons,
          if_neg hq, List.filter_comm]
        symm
        apply List.filter_eq_self.mpr
        intro a ha
        have h1 := (List.mem_filter.mp ha).2
        have hay : a ≠ y := fun h => hq (h ▸ h1)
        simp [hay]

/-- The counting loop of `get_best_prediction`, started from a tally
with distinct keys: every existing key keeps its position and gains the
number of further occurrences, and the new keys follow in order of
first appearance, each with its occurrence count. -/
lemma foldl_bump_eq :
    ∀ (l : List String) (acc : List (String × Nat)),
      (keysOf acc).Nodup →
      l.foldl bump acc
        = acc.map (fun kc => (kc.1, kc.2 + l.count kc.1))
          ++ (firstOccs (l.filter (fun x => x ∉ keysOf acc))).map
              (fun k => (k, l.count k)) := by
  intro l
  induction l with
  | nil =>
      intro acc hnd
      simp [firstOccs]
  | cons p l ih =>
      intro acc hnd
      rw [List.foldl_cons]
      by_cases hp : p ∈ keysOf acc
      · have hk := keysOf_bump_of_mem hnd hp
        have hnd' : (keysOf (bump acc p)).Nodup := by rw [hk]; exact hnd
        rw [ih _ hnd']
        simp only [hk]
        rw [bump_of_mem hnd hp, List.map_map]
        have hfc : (p :: l).filter (fun x => x ∉ keysOf acc)
            = l.filter (fun x => x ∉ keysOf acc) := by
          rw [List.filter_cons, if_neg (by simp [hp])]
        rw [hfc]
        congr 1
        · apply List.map_congr_left
          intro kc hkc
          obtain ⟨k, c⟩ := kc
          by_cases h : k = p
          · subst h
            simp [List.count_cons_self, Nat.add_comm, Nat.add_assoc,
              Nat.add_left_comm]
          · simp only [Function.comp_apply, if_neg h,
              List.count_cons_of_ne h]
        · apply List.map_congr_left
          intro k hkmem
          have hk2 : k ∈ l.filter (fun x => x ∉ keysOf acc) :=
            mem_firstOccs.mp hkmem
          have hknp : k ≠ p := by
            intro h
            have := (List.mem_filter.mp hk2).2
            rw [h] at this
            simp [hp] at this
          simp only [List.count_cons_of_ne hknp]
      · have hk := keysOf_bump_of_not_mem hp
        have hnd' : (keysOf (bump acc p)).Nodup := by
          rw [hk, List.nodup_append]
          exact ⟨hnd, List.nodup_singleton p, by
            intro x hx hx2
            simp only [List.mem_singleton] at hx2
            exact hp (hx2 ▸ hx)⟩
        rw [ih _ hnd']
        simp only [hk]
        rw [bump_of_not_mem hp]
        have hfilter : l.filter (fun x => x ∉ keysOf acc ++ [p])
            = (l.filter (fun x => x ∉ keysOf acc)).filter
                (fun z => z ≠ p) := by
          rw [List.filter_filter]
          apply List.filter_congr
          intro x _
          by_cases h1 : x = p
          · simp [h1]
          · by_cases h2 : x ∈ keysOf acc <;> simp [h1, h2]
        have hfc : (p :: l).filter (fun x => x ∉ keysOf acc)
            = p :: l.filter (fun x => x ∉ keysOf acc) := by
          rw [List.filter_cons, if_pos (by simp [hp])]
        have hfo : firstOccs (p :: l.filter (fun x => x ∉ keysOf acc))
            = p :: (firstOccs (l.filter (fun x => x ∉ keysOf acc))).filter
                (fun z => z ≠ p) := rfl
        have e1 : acc.map (fun kc => (kc.1, kc.2 + l.count kc.1))
            = acc.map (fun kc => (kc.1, kc.2 + (p :: l).count kc.1)) := by
          apply List.map_congr_left
          intro kc hkc
          have hne : kc.1 ≠ p := fun h =>
            hp (h ▸ List.mem_map_of_mem Prod.fst hkc)
          simp only [List.count_cons_of_ne hne]
        have e2 : ((firstOccs (l.filter (fun x => x ∉ keysOf acc))).filter
              (fun z => z ≠ p)).map (fun k => (k, l.count k))
            = ((firstOccs (l.filter (fun x => x ∉ keysOf acc))).filter
              (fun z => z ≠ p)).map (fun k => (k, (p :: l).count k)) := by
          apply List.map_congr_left
          intro k hk2
          have hne : k ≠ p := by simpa using (List.mem_filter.mp hk2).2
          simp only [List.count_cons_of_ne hne]
        rw [hfilter, firstOccs_filter, hfc, hfo, e2, List.map_append,
          ← e1]
        simp only [List.map_cons, List.map_nil, List.count_cons_self,
          List.append_assoc, List.singleton_append, List.nil_append]
        rw [Nat.add_comm 1 (List.count p l)]

/-- The tally built by `get_best_prediction` lists the distinct
predictions in order of first appearance, each with its count. -/
lemma tally_eq (l : List String) :
    l.foldl bump [] = (firstOccs l).map (fun k => (k, l.count k)) := by
  rw [foldl_bump_eq l [] (by simp [keysOf])]
  simp only [List.map_nil, List.nil_append, keysOf]
  congr 2
  apply (List.filter_eq_self).mpr
  intro a _
  simp

/-! ### The selection loop keeps the first entry reaching the maximum -/

lemma maxValue_cons (kc : String × Nat) (rest : List (String × Nat)) :
    maxValue (kc :: rest) = max kc.2 (maxValue rest) := rfl

lemma mem_le_maxValue :
    ∀ {counts : List (String × Nat)} {kc : String × Nat},
      kc ∈ counts → kc.2 ≤ maxValue counts := by
  intro counts
  induction counts with
  | nil => intro kc h; cases h
  | cons a rest ih =>
      intro kc h
      rw [maxValue_cons]
      rcases List.mem_cons.mp h with h1 | h1
      · subst h1; exact le_max_left _ _
      · exact le_trans (ih h1) (le_max_right _ _)

lemma foldl_selStep_of_le :
    ∀ (counts : List (String × Nat)) (b : Option String) (c : Nat),
      maxValue counts ≤ c → counts.foldl selStep (b, c) = (b, c) := by
  intro counts
  induction counts with
  | nil => intro b c _; rfl
  | cons kc rest ih =>
      intro b c h
      rw [maxValue_cons] at h
      rcases max_le_iff.mp h with ⟨h1, h2⟩
      rw [List.foldl_cons]
      have hstep : selStep (b, c) kc = (b, c) := by
        simp only [selStep]
        rw [if_neg (by omega)]
      rw [hstep]
      exact ih b c h2

/-- The selection loop of `get_best_prediction`, started below the
maximum of the tally: it returns the key of the first entry whose count
equals the maximum, and every earlier entry has a strictly smaller
count. -/
lemma foldl_selStep_of_lt :
    ∀ (counts : List (String × Nat)) (b : Option String) (c : Nat),
      c < maxValue counts →
      ∃ pre m post,
        counts = pre ++ (m, maxValue counts) :: post ∧
        counts.foldl selStep (b, c) = (some m, maxValue counts) ∧
        ∀ kc ∈ pre, kc.2 < maxValue counts := by
  intro counts
  induction counts with
  | nil =>
      intro b c h
      simp [maxValue] at h
  | cons kc rest ih =>
      intro b c h
      obtain ⟨k, v⟩ := kc
      rw [maxValue_cons] at h
      rw [List.foldl_cons]
      by_cases hv : v > c
      · have hstep : selStep (b, c) (k, v) = (some k, v) := by
          simp only [selStep]
          rw [if_pos (by omega)]
        rw [hstep]
        by_cases hr : maxValue rest ≤ v
        · have hM : maxValue ((k, v) :: rest) = v := by
            rw [maxValue_cons]; exact max_eq_left hr
          refine ⟨[], k, rest, ?_, ?_, by simp⟩
          · rw [hM]; rfl
          · rw [hM]
            exact foldl_selStep_of_le rest (some k) v hr
        · push_neg at hr
          have hM : maxValue ((k, v) :: rest) = maxValue rest := by
            rw [maxValue_cons]; exact max_eq_right (le_of_lt hr)
          obtain ⟨pre, m, post, hsplit, hfold, hpre⟩ :=
            ih (some k) v hr
          refine ⟨(k, v) :: pre, m, post, ?_, ?_, ?_⟩
          · rw [hM, List.cons_append]
            exact congrArg (List.cons (k, v)) hsplit
          · rw [hM, hfold]
          · intro kc2 hkc2
            rw [hM]
            rcases List.mem_cons.mp hkc2 with h1 | h1
            · subst h1; exact hr
            · exact hpre _ h1
      · have hstep : selStep (b, c) (k, v) = (b, c) := by
          simp only [selStep]
          rw [if_neg (by omega)]
        rw [hstep]
        have h1 : c < maxValue rest := by
          rcases lt_max_iff.mp h with h2 | h2
          · omega
          · exact h2
        have hM : maxValue ((k, v) :: rest) = maxValue rest := by
          rw [maxValue_cons]
          exact max_eq_right (by omega)
        obtain ⟨pre, m, post, hsplit, hfold, hpre⟩ := ih b c h1
        refine ⟨(k, v) :: pre, m, post, ?_, ?_, ?_⟩
        · rw [hM, List.cons_append]
          exact congrArg (List.cons (k, v)) hsplit
        · rw [hM, hfold]
        · intro kc2 hkc2
          rw [hM]
          rcases List.mem_cons.mp hkc2 with h2 | h2
          · subst h2; omega
          · exact hpre _ h2

/-! ### First-appearance order is index order -/

lemma firstOccs_pairwise_indexOf :
    ∀ (l : List String),
      (firstOccs l).Pairwise (fun a b => l.indexOf a ≤ l.indexOf b) := by
  intro l
  induction l with
  | nil => simp [firstOccs]
  | cons y ys ih =>
      have hR : firstOccs (y :: ys)
          = y :: (firstOccs ys).filter (fun z => z ≠ y) := rfl
      rw [hR]
      refine List.Pairwise.cons ?_ ?_
      · intro b _
        rw [List.indexOf_cons_self]
        exact Nat.zero_le _
      · have h1 : ((firstOccs ys).filter (fun z => z ≠ y)).Pairwise
            (fun a b => ys.indexOf a ≤ ys.indexOf b) :=
          List.Pairwise.sublist (List.filter_sublist _) ih
        refine List.Pairwise.imp_of_mem ?_ h1
        intro a b ha hb hab
        have hay : a ≠ y := by simpa using (List.mem_filter.mp ha).2
        have hby : b ≠ y := by simpa using (List.mem_filter.mp hb).2
        rw [List.indexOf_cons_ne ys (Ne.symm hay),
          List.indexOf_cons_ne ys (Ne.symm hby)]
        exact Nat.succ_le_succ hab

/-! ### Full characterization of `get_best_prediction` -/

/-- On a non-empty list, `get_best_prediction` returns a label of the
list whose count is maximal, and among the labels of maximal count the
one whose first appearance is earliest. -/
lemma get_best_prediction_spec (l : List String) (hne : l ≠ []) :
    ∃ m, get_best_prediction l = some m ∧ m ∈ l ∧
      (∀ x ∈ l, l.count x ≤ l.count m) ∧
      (∀ x ∈ l, l.count x = l.count m → l.indexOf m ≤ l.indexOf x) := by
  have htally := tally_eq l
  set counts := l.foldl bump [] with hcounts
  have hmax : 0 < maxValue counts := by
    obtain ⟨a, t, rfl⟩ : ∃ a t, l = a :: t := by
      cases l with
      | nil => exact absurd rfl hne
      | cons a t => exact ⟨a, t, rfl⟩
    have ha : a ∈ firstOccs (a :: t) :=
      mem_firstOccs.mpr (List.mem_cons_self a t)
    have hmem : (a, (a :: t).count a) ∈ counts := by
      rw [htally]
      exact List.mem_map_of_mem _ ha
    have h1 : 0 < (a :: t).count a :=
      List.count_pos_iff.mpr (List.mem_cons_self a t)
    have h2 := mem_le_maxValue hmem
    simp only at h2
    omega
  obtain ⟨pre, m, post, hsplit, hfold, hpre⟩ :=
    foldl_selStep_of_lt counts none 0 hmax
  have hgbp : get_best_prediction l = some m := by
    unfold get_best_prediction
    rw [if_neg hne, ← hcounts]
    show (counts.foldl selStep ((none : Option String), 0)).1 = some m
    rw [hfold]
  have hmemcounts : (m, maxValue counts) ∈ counts := by
    have h0 : (m, maxValue counts) ∈ pre ++ (m, maxValue counts) :: post :=
      List.mem_append_right pre (List.mem_cons_self _ _)
    rw [← hsplit] at h0
    exact h0
  have hmemmap : (m, maxValue counts)
      ∈ (firstOccs l).map (fun k => (k, l.count k)) := by
    rw [← htally]
    exact hmemcounts
  obtain ⟨k0, hk0mem, hk0eq⟩ := List.mem_map.mp hmemmap
  have hk0m : k0 = m := congrArg Prod.fst hk0eq
  have hMcount : maxValue counts = l.count m := by
    rw [← hk0m]
    exact (congrArg Prod.snd hk0eq).symm
  have hmmem : m ∈ l := mem_firstOccs.mp (hk0m ▸ hk0mem)
  have hid : (firstOccs l).map
      (Prod.fst ∘ fun k => (k, l.count k)) = firstOccs l := by
    have hpt : ∀ x ∈ firstOccs l,
        (Prod.fst ∘ fun k => (k, l.count k)) x = id x := fun x _ => rfl
    rw [List.map_congr_left hpt, List.map_id]
  refine ⟨m, hgbp, hmmem, ?_, ?_⟩
  · intro x hx
    have hxc : (x, l.count x) ∈ counts := by
      rw [htally]
      exact List.mem_map_of_mem _ (mem_firstOccs.mpr hx)
    have h3 := mem_le_maxValue hxc
    simp only at h3
    omega
  · intro x hx hcx
    have hxc : (x, l.count x) ∈ counts := by
      rw [htally]
      exact List.mem_map_of_mem _ (mem_firstOccs.mpr hx)
    rw [hsplit] at hxc
    rcases List.mem_append.mp hxc with hin | hin
    · have h4 := hpre _ hin
      simp only at h4
      omega
    · rcases List.mem_cons.mp hin with hin2 | hin2
      · have hxm : x = m := congrArg Prod.fst hin2
        rw [hxm]
      · have h3 : (firstOccs l).map (fun k => (k, l.count k))
            = pre ++ (m, maxValue counts) :: post := by
          rw [← htally]
          exact hsplit
        have h4 := congrArg (List.map Prod.fst) h3
        rw [List.map_map, hid, List.map_append, List.map_cons] at h4
        have hord := firstOccs_pairwise_indexOf l
        rw [h4, List.pairwise_append] at hord
        have hmrel := hord.2.1
        have hxin : x ∈ post.map Prod.fst :=
          List.mem_map_of_mem Prod.fst hin2
        exact (List.pairwise_cons.mp hmrel).1 x hxin

/-- `find_matching_patterns` computes exactly the spec-side description:
the concatenation, over table entries in table order, of each entry's
outcome repeated once per matching window offset. -/
lemma find_matching_patterns_eq (patterns : List (String × String))
    (results : List String) :
    find_matching_patterns patterns results
      = patterns.flatMap (contrib results) := by
  unfold find_matching_patterns
  by_cases hg : patterns = [] ∨ results = []
  · rw [if_pos hg]
    rcases hg with h | h
    · simp [h]
    · subst h
      symm
      rw [List.flatMap_eq_nil_iff]
      intro pr _
      rw [contrib, matchingOffsets_of_too_long
        (by simpa using splitComma_length_pos pr.1)]
      rfl
  · rw [if_neg hg, outer_fold_eq]
    rfl

/-! ### Consequences used by the claim theorems -/

lemma get_best_prediction_eq_none_iff (l : List String) :
    get_best_prediction l = none ↔ l = [] := by
  constructor
  · intro h
    by_contra hne
    obtain ⟨m, hm, -, -, -⟩ := get_best_prediction_spec l hne
    rw [h] at hm
    exact Option.noConfusion hm
  · intro h
    rw [h]
    rfl

lemma get_best_prediction_mem {l : List String} {m : String}
    (h : get_best_prediction l = some m) : m ∈ l := by
  have hne : l ≠ [] := by
    intro h0
    rw [h0] at h
    exact Option.noConfusion h
  obtain ⟨m', hm', hmem, -, -⟩ := get_best_prediction_spec l hne
  have := Option.some.inj (h.symm.trans hm')
  rw [this]
  exact hmem

lemma mem_fmp_of_mem_contrib {patterns : List (String × String)}
    {results : List String} {pr : String × String} {o : String}
    (hpr : pr ∈ patterns) (ho : o ∈ contrib results pr) :
    o ∈ find_matching_patterns patterns results := by
  rw [find_matching_patterns_eq]
  exact List.mem_flatMap.mpr ⟨pr, hpr, ho⟩

/-- A pattern that is a suffix of the history matches at the offset
`results.length - pat.length`. -/
lemma matchingOffsets_suffix {pat results : List String}
    (hsuf : pat <:+ results) :
    results.length - pat.length ∈ matchingOffsets pat results := by
  obtain ⟨u, hu⟩ := hsuf
  have hlen : results.length = u.length + pat.length := by
    rw [← hu, List.length_append]
  have hoff : results.length - pat.length = u.length := by omega
  rw [matchingOffsets, List.mem_filter]
  constructor
  · rw [List.mem_range]
    omega
  · have hwin : window results (results.length - pat.length) pat.length
        = pat := by
      rw [hoff, window, ← hu, List.drop_left, List.take_length]
    simp [hwin]

/-- Occurrence count of an outcome in the spec-side match list: the
total number of matching (pattern, offset) pairs carrying it. -/
lemma count_flatMap_contrib (patterns : List (String × String))
    (results : List String) (o : String) :
    (patterns.flatMap (contrib results)).count o
      = (patterns.map (fun pr => if pr.2 = o
          then (matchingOffsets (splitComma pr.1) results).length
          else 0)).sum := by
  induction patterns with
  | nil => rfl
  | cons pr prs ih =>
      rw [List.flatMap_cons, List.count_append, ih, List.map_cons,
        List.sum_cons]
      congr 1
      rw [contrib, List.map_const', List.count_replicate]
      by_cases h : pr.2 = o
      · rw [if_pos h, if_pos (by simp [h])]
      · rw [if_neg h, if_neg (by simp [h])]

/-! ### State lemmas for the frame property -/

lemma foldl_state_eq (res pattern : List String) (y : String) :
    ∀ (l : List Nat) (s : MatcherState), s.results = res →
      l.foldl (fun s2 i => if window s2.results i pattern.length = pattern
          then { s2 with matchList := s2.matchList ++ [y] } else s2) s
        = { s with matchList := l.foldl (fun ms i =>
            if window res i pattern.length = pattern
            then ms ++ [y] else ms) s.matchList } := by
  intro l
  induction l with
  | nil => intro s _; rfl
  | cons i is ih =>
      intro s hres
      rw [List.foldl_cons, List.foldl_cons]
      by_cases h : window res i pattern.length = pattern
      · rw [if_pos (by rw [hres]; exact h), if_pos h,
          ih _ (by simpa using hres)]
      · rw [if_neg (by rw [hres]; exact h), if_neg h, ih _ hres]

lemma foldl_fmp_body_eq (res : List String) :
    ∀ (prs : List (String × String)) (s : MatcherState),
      s.results = res →
      prs.foldl fmp_body s
        = { s with matchList := prs.foldl (fun matchList pr =>
            let pattern := splitComma pr.1
            let pattern_len := pattern.length
            if pattern_len > res.length then matchList
            else (List.range (res.length - pattern_len + 1)).foldl
              (fun ms i => if window res i pattern_len = pattern
                           then ms ++ [pr.2] else ms)
              matchList) s.matchList } := by
  intro prs
  induction prs with
  | nil => intro s _; rfl
  | cons pr rest ih =>
      intro s hres
      rw [List.foldl_cons, List.foldl_cons]
      by_cases h : (splitComma pr.1).length > res.length
      · have hbody : fmp_body s pr = s := by
          simp only [fmp_body, hres]
          rw [if_pos h]
        rw [hbody, ih _ hres]
        simp only [if_pos h]
      · have hbody : fmp_body s pr
            = MatcherState.mk s.patterns res
                ((List.range (res.length - (splitComma pr.1).length + 1)).foldl
                  (fun ms i => if window res i (splitComma pr.1).length
                      = splitComma pr.1 then ms ++ [pr.2] else ms)
                  s.matchList) := by
          simp only [fmp_body, hres]
          rw [if_neg h, foldl_state_eq res (splitComma pr.1) pr.2 _ s hres,
            hres]
        rw [hbody, ih _ rfl]
        simp only [if_neg h]
        rw [hres]

/-! ## Claim theorems -/

/-- C1 (counterexample): the claim "predict returns the outcome mapped
to a pattern equal to a suffix window of results" fails as stated. With
the table {"Big" ↦ "X", "Small" ↦ "Y"} and results ["Big","Small"], the
key "Small" splits to a pattern equal to the suffix window of length 1,
mapped to "Y" — yet `predict` returns "X", because "Big" also matches
(at offset 0) and the first-encountered tie-break prefers it. -/
theorem C1_counterexample :
    (["Big", "Small"] : List String) ≠ []
    ∧ ("Small", "Y") ∈ [("Big", "X"), ("Small", "Y")]
    ∧ splitComma "Small" <:+ ["Big", "Small"]
    ∧ predict [("Big", "X"), ("Small", "Y")] ["Big", "Small"] = some "X"
    ∧ predict [("Big", "X"), ("Small", "Y")] ["Big", "Small"]
        ≠ some "Y" :=
  ⟨by decide, by decide, ⟨["Big"], by decide⟩, by decide, by decide⟩

/-- C1 (amended): for non-empty results and a table containing a
pattern equal to a suffix window of results of the same length,
`predict` returns some outcome label (not absence), and that label is
the mapped outcome of some pattern of the table that matches a
contiguous window; when the suffix pattern is the table's only entry,
`predict` returns its mapped outcome. -/
theorem C1_suffix_pattern_prediction :
    ∀ (patterns : List (String × String)) (results : List String)
      (key o : String),
      results ≠ [] → (key, o) ∈ patterns →
      splitComma key <:+ results →
      (predict patterns results).isSome = true
      ∧ (∃ pr ∈ patterns, predict patterns results = some pr.2
          ∧ matchingOffsets (splitComma pr.1) results ≠ [])
      ∧ (patterns = [(key, o)] →
          predict patterns results = some o) := by
  intro patterns results key o _ hkey hsuf
  have hoff : results.length - (splitComma key).length
      ∈ matchingOffsets (splitComma key) results :=
    matchingOffsets_suffix hsuf
  have hcontrib : o ∈ contrib results (key, o) :=
    List.mem_map.mpr ⟨_, hoff, rfl⟩
  have hofmp : o ∈ find_matching_patterns patterns results :=
    mem_fmp_of_mem_contrib hkey hcontrib
  have hfmpne : find_matching_patterns patterns results ≠ [] :=
    List.ne_nil_of_mem hofmp
  obtain ⟨m, hm, hmemm, -, -⟩ :=
    get_best_prediction_spec (find_matching_patterns patterns results)
      hfmpne
  have hpredict : predict patterns results = some m := hm
  refine ⟨by rw [hpredict]; rfl, ?_, ?_⟩
  · rw [find_matching_patterns_eq] at hmemm
    obtain ⟨pr, hpr, hmpr⟩ := List.mem_flatMap.mp hmemm
    obtain ⟨i, hi, hieq⟩ := List.mem_map.mp hmpr
    exact ⟨pr, hpr, by rw [hpredict, ← hieq], List.ne_nil_of_mem hi⟩
  · intro hps
    subst hps
    rw [find_matching_patterns_eq] at hmemm
    obtain ⟨pr, hpr, hmpr⟩ := List.mem_flatMap.mp hmemm
    have hpr0 : pr = (key, o) := by simpa using hpr
    subst hpr0
    obtain ⟨i, hi, hieq⟩ := List.mem_map.mp hmpr
    rw [hpredict, ← hieq]

/-- C1 witness: the amended claim at the singleton table
{"Small" ↦ "Y"} and results ["Big","Small"]. -/
theorem C1_suffix_pattern_prediction_witness :
    (["Big", "Small"] : List String) ≠ []
    ∧ ("Small", "Y") ∈ [("Small", "Y")]
    ∧ splitComma "Small" <:+ ["Big", "Small"]
    ∧ ((predict [("Small", "Y")] ["Big", "Small"]).isSome = true
        ∧ (∃ pr ∈ [("Small", "Y")],
            predict [("Small", "Y")] ["Big", "Small"] = some pr.2
            ∧ matchingOffsets (splitComma pr.1) ["Big", "Small"] ≠ [])
        ∧ ([("Small", "Y")] = [("Small", "Y")] →
            predict [("Small", "Y")] ["Big", "Small"] = some "Y")) :=
  ⟨by decide, by decide, ⟨["Big"], by decide⟩,
    C1_suffix_pattern_prediction [("Small", "Y")] ["Big", "Small"]
      "Small" "Y" (by decide) (by decide) ⟨["Big"], by decide⟩⟩

/-- C2: on any non-empty match list `get_best_prediction` returns some
label of the list; any returned label has maximal occurrence count, and
among the labels with that count it is the one whose first appearance
in the input list is earliest (the first candidate to reach the
maximum; later candidates do not displace it). In particular on
["Small","Big"], with both counts 1, it returns "Small". -/
theorem C2_majority_with_first_appearance_tiebreak :
    (∀ l : List String, l ≠ [] → (get_best_prediction l).isSome = true)
    ∧ (∀ (l : List String) (m : String),
        get_best_prediction l = some m →
        m ∈ l ∧ ∀ x ∈ l, l.count x ≤ l.count m
          ∧ (l.count x = l.count m → l.indexOf m ≤ l.indexOf x))
    ∧ get_best_prediction ["Small", "Big"] = some "Small" := by
  refine ⟨?_, ?_, by decide⟩
  · intro l hne
    obtain ⟨m, hm, -, -, -⟩ := get_best_prediction_spec l hne
    rw [hm]
    rfl
  · intro l m hm
    have hne : l ≠ [] := by
      intro h0
      rw [h0] at hm
      exact Option.noConfusion hm
    obtain ⟨m', hm', hmem, hmax, htie⟩ := get_best_prediction_spec l hne
    have heq : m' = m := Option.some.inj (hm'.symm.trans hm)
    subst heq
    exact ⟨hmem, fun x hx => ⟨hmax x hx, htie x hx⟩⟩

/-- C2 witness: the characterization applied to the concrete match list
["Small","Big"]. -/
theorem C2_majority_with_first_appearance_tiebreak_witness :
    (["Small", "Big"] : List String) ≠ []
    ∧ (get_best_prediction ["Small", "Big"]).isSome = true
    ∧ ("Small" ∈ (["Small", "Big"] : List String)
        ∧ ∀ x ∈ (["Small", "Big"] : List String),
          List.count x ["Small", "Big"]
              ≤ List.count "Small" ["Small", "Big"]
          ∧ (List.count x ["Small", "Big"]
                = List.count "Small" ["Small", "Big"] →
              List.indexOf "Small" ["Small", "Big"]
                ≤ List.indexOf x ["Small", "Big"])) :=
  ⟨by decide,
   C2_majority_with_first_appearance_tiebreak.1 ["Small", "Big"]
     (by decide),
   C2_majority_with_first_appearance_tiebreak.2.1 ["Small", "Big"]
     "Small" (by decide)⟩

/-- C3: the match list counts each matching (pattern, window-offset)
pair exactly once — for every outcome `o`, the number of occurrences of
`o` in the output is the sum, over table entries mapped to `o`, of the
number of offsets whose window equals the entry's pattern; overlapping
windows count independently (["Big","Small","Big","Small"] against
"Big,Small" ↦ "X" yields ["X","X"], offsets 0 and 2), and matching is
exact and case-sensitive ("big" does not match "Big"). -/
theorem C3_one_occurrence_per_matching_pair :
    (∀ (patterns : List (String × String)) (results : List String)
        (o : String),
      (find_matching_patterns patterns results).count o
        = (patterns.map (fun pr => if pr.2 = o
            then (matchingOffsets (splitComma pr.1) results).length
            else 0)).sum)
    ∧ find_matching_patterns [("Big,Small", "X")]
        ["Big", "Small", "Big", "Small"] = ["X", "X"]
    ∧ matchingOffsets (splitComma "Big,Small")
        ["Big", "Small", "Big", "Small"] = [0, 2]
    ∧ find_matching_patterns [("big", "X")] ["Big"] = [] := by
  refine ⟨?_, by decide, by decide, by decide⟩
  intro patterns results o
  rw [find_matching_patterns_eq, count_flatMap_contrib]

/-- C4: a pattern longer than the history contributes nothing —
removing every too-long entry from the table leaves the output of
`find_matching_patterns` unchanged (and a concrete too-long pattern of
length 5 against a history of length 3 yields no match). -/
theorem C4_too_long_pattern_never_matches :
    (∀ (patterns : List (String × String)) (results : List String),
      find_matching_patterns patterns results
        = find_matching_patterns
            (patterns.filter
              (fun pr => (splitComma pr.1).length ≤ results.length))
            results)
    ∧ find_matching_patterns [("a,b,c,d,e", "X")] ["a", "b", "c"]
        = [] := by
  refine ⟨?_, by decide⟩
  intro patterns results
  rw [find_matching_patterns_eq, find_matching_patterns_eq]
  induction patterns with
  | nil => rfl
  | cons pr prs ih =>
      rw [List.flatMap_cons, List.filter_cons]
      by_cases h : (splitComma pr.1).length ≤ results.length
      · rw [if_pos (by simpa using h), List.flatMap_cons, ih]
      · rw [if_neg (by simpa using h)]
        have hc : contrib results pr = [] := by
          rw [contrib, matchingOffsets_of_too_long (by omega)]
          rfl
        rw [hc, List.nil_append, ih]

/-- C5: `predict` returns absence exactly when the match list is empty
— in particular on an empty table or an empty history — and otherwise
returns exactly one label. -/
theorem C5_absence_iff_no_match :
    (∀ (patterns : List (String × String)) (results : List String),
      predict patterns results = none
        ↔ find_matching_patterns patterns results = [])
    ∧ (∀ results : List String, predict [] results = none)
    ∧ (∀ patterns : List (String × String), predict patterns [] = none)
    ∧ (∀ (patterns : List (String × String)) (results : List String),
        find_matching_patterns patterns results ≠ [] →
        ∃ o, predict patterns results = some o) := by
  have hiff : ∀ (patterns : List (String × String))
      (results : List String),
      predict patterns results = none
        ↔ find_matching_patterns patterns results = [] := by
    intro patterns results
    rw [predict]
    exact get_best_prediction_eq_none_iff _
  refine ⟨hiff, ?_, ?_, ?_⟩
  · intro results
    rw [hiff]
    simp [find_matching_patterns]
  · intro patterns
    rw [hiff]
    simp [find_matching_patterns]
  · intro patterns results hne
    cases hopt : predict patterns results with
    | none => exact absurd ((hiff _ _).mp hopt) hne
    | some o => exact ⟨o, rfl⟩

/-- C5 witness: the equivalence and the one-label case at concrete
inputs. -/
theorem C5_absence_iff_no_match_witness :
    (predict [("Big", "X")] ["Small"] = none
      ↔ find_matching_patterns [("Big", "X")] ["Small"] = [])
    ∧ find_matching_patterns [("Big", "X")] ["Big"] ≠ []
    ∧ ∃ o, predict [("Big", "X")] ["Big"] = some o :=
  ⟨C5_absence_iff_no_match.1 [("Big", "X")] ["Small"],
   by decide,
   C5_absence_iff_no_match.2.2.2 [("Big", "X")] ["Big"] (by decide)⟩

/-- C6: the matcher is total — its embedding consists of total
functions, and the empty-collection inputs are valid "no data" states
yielding the empty list or absence rather than a failure. -/
theorem C6_empty_inputs_degrade_to_empty_output :
    (∀ results : List String, find_matching_patterns [] results = [])
    ∧ (∀ patterns : List (String × String),
        find_matching_patterns patterns [] = [])
    ∧ get_best_prediction [] = none
    ∧ (∀ results : List String, predict [] results = none)
    ∧ (∀ patterns : List (String × String), predict patterns [] = none) := by
  refine ⟨?_, ?_, rfl, ?_, ?_⟩
  · intro results
    simp [find_matching_patterns]
  · intro patterns
    simp [find_matching_patterns]
  · intro results
    rw [predict]
    simp [find_matching_patterns]
    rfl
  · intro patterns
    rw [predict]
    simp [find_matching_patterns]
    rfl

/-- C7: no call mutates its arguments — running the matching loop with
the whole environment (both arguments and the local accumulator) as
explicit state leaves the `patterns` and `results` components equal to
the caller's values, while the accumulator holds exactly the pure
result. `predict` adds only pure post-processing of that result, so the
same holds for it. -/
theorem C7_arguments_not_mutated :
    ∀ (patterns : List (String × String)) (results : List String),
      (find_matching_patterns_run patterns results).patterns = patterns
      ∧ (find_matching_patterns_run patterns results).results = results
      ∧ (find_matching_patterns_run patterns results).matchList
          = find_matching_patterns patterns results
      ∧ predict patterns results
          = get_best_prediction
              (find_matching_patterns_run patterns results).matchList := by
  intro patterns results
  have hrun : (find_matching_patterns_run patterns results).patterns
        = patterns
      ∧ (find_matching_patterns_run patterns results).results = results
      ∧ (find_matching_patterns_run patterns results).matchList
        = find_matching_patterns patterns results := by
    rw [find_matching_patterns_run, find_matching_patterns]
    by_cases hg : patterns = [] ∨ results = []
    · rw [if_pos hg, if_pos hg]
      exact ⟨rfl, rfl, rfl⟩
    · rw [if_neg hg, if_neg hg,
        foldl_fmp_body_eq results patterns ⟨patterns, results, []⟩ rfl]
      exact ⟨rfl, rfl, rfl⟩
  refine ⟨hrun.1, hrun.2.1, hrun.2.2, ?_⟩
  rw [hrun.2.2, predict]

/-- C8: `predict` is a pure function of its two arguments — two calls
with equal arguments give equal results; the embedding carries no other
state a call could read or write (the Python class holds only static
methods and no assignment outside the call's own locals). -/
theorem C8_predict_deterministic_stateless :
    ∀ (patterns patterns2 : List (String × String))
      (results results2 : List String),
      patterns = patterns2 → results = results2 →
      predict patterns results = predict patterns2 results2 := by
  intro _ _ _ _ h1 h2
  rw [h1, h2]

/-- C8 witness: two identical concrete calls agree. -/
theorem C8_predict_deterministic_stateless_witness :
    [("Big", "X")] = [("Big", "X")]
    ∧ (["Big"] : List String) = ["Big"]
    ∧ predict [("Big", "X")] ["Big"] = predict [("Big", "X")] ["Big"] :=
  ⟨rfl, rfl,
   C8_predict_deterministic_stateless [("Big", "X")] [("Big", "X")]
     ["Big"] ["Big"] rfl rfl⟩

/-- C9 (implicit): the output order of `find_matching_patterns` is
fixed — it is the concatenation, over table entries in table (insertion)
order, of each entry's outcome repeated once per matching offset, the
offsets in ascending order; consequently, in the spec's tie-break
scenario the earlier pattern in table order wins: the two-pattern table
{"Big,Small" ↦ "Small", "Small,Big" ↦ "Big"} on ["Big","Small","Big"]
yields the match list ["Small","Big"] and `predict` returns "Small". -/
theorem C9_output_order_table_then_offset :
    (∀ (patterns : List (String × String)) (results : List String),
      find_matching_patterns patterns results
        = patterns.flatMap (fun pr =>
            (matchingOffsets (splitComma pr.1) results).map
              (fun _ => pr.2)))
    ∧ (∀ (pat results : List String),
        (matchingOffsets pat results).Sorted (· < ·))
    ∧ find_matching_patterns
        [("Big,Small", "Small"), ("Small,Big", "Big")]
        ["Big", "Small", "Big"] = ["Small", "Big"]
    ∧ predict [("Big,Small", "Small"), ("Small,Big", "Big")]
        ["Big", "Small", "Big"] = some "Small" := by
  refine ⟨?_, ?_, by decide, by decide⟩
  · intro patterns results
    rw [find_matching_patterns_eq]
    rfl
  · intro pat results
    exact List.Pairwise.sublist (List.filter_sublist _)
      (List.pairwise_lt_range _)

/-- C10 (implicit): the empty-string table key is neither skipped nor
matched everywhere — it splits to the one-element pattern [""], so it
contributes its outcome exactly at the offsets whose history element is
the empty-string label, and contributes nothing when no element of the
history is the empty string. -/
theorem C10_empty_key_matches_empty_label :
    splitComma "" = [""]
    ∧ (∀ (results : List String) (o : String),
        find_matching_patterns [("", o)] results
          = ((List.range results.length).filter
              (fun i => (results.drop i).head? = some "")).map
              (fun _ => o))
    ∧ (∀ (results : List String) (o : String),
        (∀ r ∈ results, r ≠ "") →
        find_matching_patterns [("", o)] results = []) := by
  have h2 : ∀ (results : List String) (o : String),
      find_matching_patterns [("", o)] results
        = ((List.range results.length).filter
            (fun i => (results.drop i).head? = some "")).map
            (fun _ => o) := by
    intro results o
    rw [find_matching_patterns_eq, List.flatMap_cons, List.flatMap_nil,
      List.append_nil, contrib]
    cases results with
    | nil => rfl
    | cons r rs =>
        have hrange : (r :: rs).length - (splitComma "").length + 1
            = (r :: rs).length := by
          simp [splitComma, splitCommaAux]
        rw [matchingOffsets, hrange]
        congr 1
        apply List.filter_congr
        intro i _
        cases hd : (r :: rs).drop i with
        | nil => simp [window, hd, splitComma, splitCommaAux]
        | cons x t => simp [window, hd, splitComma, splitCommaAux]
  refine ⟨rfl, h2, ?_⟩
  intro results o hno
  rw [h2]
  have : (List.range results.length).filter
      (fun i => (results.drop i).head? = some "") = [] := by
    rw [List.filter_eq_nil_iff]
    intro i _
    simp only [decide_eq_true_eq]
    intro hhead
    cases hd : results.drop i with
    | nil => rw [hd] at hhead; exact Option.noConfusion hhead
    | cons x t =>
        rw [hd] at hhead
        have hx : x = "" := Option.some.inj hhead
        have hxmem : x ∈ results :=
          List.drop_subset i results (hd ▸ List.mem_cons_self x t)
        exact hno x hxmem hx
  rw [this]
  rfl

/-- C10 witness: a history with no empty-string label gets no
contribution from the empty key. -/
theorem C10_empty_key_matches_empty_label_witness :
    (∀ r ∈ (["Big", "Small"] : List String), r ≠ "")
    ∧ find_matching_patterns [("", "X")] ["Big", "Small"] = [] :=
  ⟨by decide,
   C10_empty_key_matches_empty_label.2.2 ["Big", "Small"] "X"
     (by decide)⟩

end OG
